import Mathlib

/-!
Verification development for the block-production core of a minimal blockchain
node (the miner module: account-resolution protocol, state applier, block
assembler, and the per-cycle body of the block-production loop).

Modelling conventions, matching the design's stated scope:
  - The transaction-execution VM and the pre-flight validity checker are
    external black boxes consumed through a requirement/commitment protocol.
    They are modelled as deterministic functions from the history of
    commitments made so far to either a final result or a paused requirement.
  - The authenticated trie is consumed only through get/insert/remove/root.
    Content addressing is modelled perfectly: a root is the canonical contents
    of the trie (an association list), and the out-of-scope Keccak-256
    collaborator is modelled as an injective (identity) content hash.
  - 256-bit balance arithmetic panics on overflow and underflow in the source
    (checked big-integer operations); this is modelled by a fatal outcome.
  - Fatal aborts (panics, failed assertions, failed unwraps) are the `fatal`
    outcome; the unbounded requirement/commitment round-trips of the
    resolution loops are made total with an explicit fuel argument, whose
    exhaustion is the separate `fuelOut` outcome (a modelling artifact, never
    a behavior of the source).
-/

namespace SputnikMiner

/-- Outcome of a fallible operation of the miner: a value, a fatal process
abort (panic, failed assertion, failed unwrap), or exhaustion of the
modelling fuel bounding the resolution loops. -/
inductive Res (α : Type) where
  | ok (val : α)
  | fatal
  | fuelOut
deriving DecidableEq, Repr

/-- Addresses are 20-byte values in the source; modelled as naturals. -/
abbrev Addr := Nat

/-- Raw byte strings (code bodies, serialized transactions and receipts). -/
abbrev Bytes := List Nat

/-- Contents of one account's storage sub-trie: a map from 256-bit keys to
256-bit values, as an association list. -/
abbrev StorageMap := List (Nat × Nat)

/-- An account record of the ledger: nonce, balance, the root of its storage
sub-trie and the content hash of its code.  Roots and hashes are modelled as
the canonical contents they address. -/
structure Account where
  nonce : Nat
  balance : Nat
  storage_root : StorageMap
  code_hash : Bytes
deriving DecidableEq, Repr

/-- The account trie: address to account, as an association list. -/
abbrev Ledger := List (Addr × Account)

/-- The raw-bytes namespace: content hash to raw bytes. -/
abbrev RawStore := List (Bytes × Bytes)

/-- The mutable chain state a production cycle works on: the account trie
snapshot plus the process-wide raw-bytes namespace. -/
structure MinerState where
  ledger : Ledger
  raw : RawStore
deriving DecidableEq, Repr

/-- Trie lookup: the value stored under a key (first matching entry). -/
def assocGet {κ α : Type} [DecidableEq κ] : List (κ × α) → κ → Option α
  | [], _ => none
  | (k2, v) :: rest, k => if k2 = k then some v else assocGet rest k

/-- Removal of every entry stored under a key. -/
def assocErase {κ α : Type} [DecidableEq κ] : List (κ × α) → κ → List (κ × α)
  | [], _ => []
  | (k2, v) :: rest, k =>
    if k2 = k then assocErase rest k else (k2, v) :: assocErase rest k

/-- Trie insertion: the map now stores `v` under `k` (map semantics, replacing
any previous value). -/
def assocInsert {κ α : Type} [DecidableEq κ] (l : List (κ × α)) (k : κ) (v : α) :
    List (κ × α) :=
  (k, v) :: assocErase l k

/-- Keys of an association list. -/
def assocKeys {κ α : Type} : List (κ × α) → List κ
  | [] => []
  | (k, _) :: rest => k :: assocKeys rest

/-- Well-formedness of a trie's canonical contents: no duplicate keys. -/
def keysNodup {κ α : Type} (l : List (κ × α)) : Prop :=
  (assocKeys l).Nodup

instance {κ α : Type} [DecidableEq κ] (l : List (κ × α)) : Decidable (keysNodup l) :=
  inferInstanceAs (Decidable (assocKeys l).Nodup)

/-- Perfect-hash model of the out-of-scope Keccak-256 collaborator: content
hashing is consumed opaquely and the design assumes it collision-free (content
addressing), so a hash is modelled as the hashed byte string itself. -/
def keccak256 (bs : Bytes) : Bytes := bs

/-- Modelled from the spec: the raw-bytes namespace lookup
`get_hash_raw(hash) -> bytes` of the chain-state module (src/miner/state.rs is
not among the sources): the bytes stored under a content hash, empty when
absent. -/
def getHashRaw (raw : RawStore) (h : Bytes) : Bytes :=
  (assocGet raw h).getD []

/-- Modelled from the spec: the raw-bytes namespace insertion
`insert_hash_raw(hash, bytes)` of the chain-state module. -/
def insertHashRaw (raw : RawStore) (h : Bytes) (bs : Bytes) : RawStore :=
  assocInsert raw h bs

/-- The four requirement kinds a paused VM operation can raise
(`RequireError` in the source). -/
inductive Requirement where
  | account (address : Addr)
  | accountCode (address : Addr)
  | accountStorage (address : Addr) (index : Nat)
  | blockhash (number : Nat)
deriving DecidableEq, Repr

/-- The facts the resolution loops commit back to a paused VM operation
(`AccountCommitment` plus the block-hash commitment in the source). -/
inductive AccountCommitment where
  | full (address : Addr) (nonce : Nat) (balance : Nat) (codeBytes : Bytes)
  | code (address : Addr) (codeBytes : Bytes)
  | storage (address : Addr) (index : Nat) (value : Nat)
  | nonexist (address : Addr)
  | blockhash (number : Nat) (hash : Bytes)
deriving DecidableEq, Repr

/-- A pausable external computation: either finished with a value or paused
with a data requirement. -/
inductive VMPause (α : Type) where
  | done (val : α)
  | needs (req : Requirement)
deriving DecidableEq, Repr

/-- A log entry produced by VM execution. -/
structure LogEntry where
  address : Addr
  topics : List Nat
  data : Bytes
deriving DecidableEq, Repr

/-- The per-account effect declarations of a finished execution
(`sputnikvm::vm::Account` in the source). -/
inductive VMEffect where
  | full (address : Addr) (nonce : Nat) (balance : Nat)
      (changingStorage : StorageMap) (codeBytes : Bytes)
  | increaseBalance (address : Addr) (value : Nat)
  | decreaseBalance (address : Addr) (value : Nat)
  | create (address : Addr) (nonce : Nat) (balance : Nat)
      (storage : StorageMap) (codeBytes : Bytes) (acctExists : Bool)
deriving DecidableEq, Repr

/-- The terminal result of a finished VM execution: the declared account
effects, the emitted logs in order, and the gas really used. -/
structure VMResult where
  accounts : List VMEffect
  logs : List LogEntry
  usedGas : Nat
deriving DecidableEq, Repr

/-- The external execution VM for one transaction (already specialized with
the transaction and the header parameters of the current block): a
deterministic function of the commitment history. -/
abbrev ExecVM := List AccountCommitment → VMPause VMResult

/-- Terminal answer of the external validity checker: a validated transaction
descriptor or a pre-execution validation error (for example a nonce
mismatch). -/
inductive ValidityOutcome where
  | valid (v : Nat)
  | invalid (e : Nat)
deriving DecidableEq, Repr

/-- The external validity checker (`ValidTransaction::from_transaction`) for
one signed transaction: a deterministic function of the commitment history
accumulated in the local account state. -/
abbrev CheckerFun := List AccountCommitment → VMPause ValidityOutcome

/-- The resolution loop of `call`: drive the execution VM to completion,
answering each paused requirement by looking the ledger up and committing the
answer back; `blockByNumber` is the chain-storage collaborator resolving
historical block-hash requirements.  The state is threaded through unchanged
(the source borrows the trie immutably here). -/
def callLoop (blockByNumber : Nat → Bytes) (vm : ExecVM) (st : MinerState) :
    Nat → List AccountCommitment → Res (MinerState × VMResult)
  | 0, _ => .fuelOut
  | fuel + 1, cs =>
    match vm cs with
    | .done r => .ok (st, r)
    | .needs (.account address) =>
      match assocGet st.ledger address with
      | some acct =>
        callLoop blockByNumber vm st fuel
          (cs ++ [.full address acct.nonce acct.balance (getHashRaw st.raw acct.code_hash)])
      | none => callLoop blockByNumber vm st fuel (cs ++ [.nonexist address])
    | .needs (.accountCode address) =>
      match assocGet st.ledger address with
      | some acct =>
        callLoop blockByNumber vm st fuel
          (cs ++ [.code address (getHashRaw st.raw acct.code_hash)])
      | none => callLoop blockByNumber vm st fuel (cs ++ [.nonexist address])
    | .needs (.accountStorage address index) =>
      match assocGet st.ledger address with
      | some acct =>
        callLoop blockByNumber vm st fuel
          (cs ++ [.storage address index ((assocGet acct.storage_root index).getD 0)])
      | none => callLoop blockByNumber vm st fuel (cs ++ [.nonexist address])
    | .needs (.blockhash number) =>
      callLoop blockByNumber vm st fuel (cs ++ [.blockhash number (blockByNumber number)])

/-- The resolution loop of `to_valid` (validity conversion): identical ledger
lookups for the three data requirements, but a `Blockhash` requirement is a
protocol violation and panics (`panic!()` in the source), and a terminal
answer that is a validation error is unwrapped (`val.unwrap()` in the source)
and therefore also panics. -/
def to_validLoop (checker : CheckerFun) (st : MinerState) :
    Nat → List AccountCommitment → Res (MinerState × Nat)
  | 0, _ => .fuelOut
  | fuel + 1, cs =>
    match checker cs with
    | .done (.valid v) => .ok (st, v)
    | .done (.invalid _) => .fatal
    | .needs (.account address) =>
      match assocGet st.ledger address with
      | some acct =>
        to_validLoop checker st fuel
          (cs ++ [.full address acct.nonce acct.balance (getHashRaw st.raw acct.code_hash)])
      | none => to_validLoop checker st fuel (cs ++ [.nonexist address])
    | .needs (.accountCode address) =>
      match assocGet st.ledger address with
      | some acct =>
        to_validLoop checker st fuel
          (cs ++ [.code address (getHashRaw st.raw acct.code_hash)])
      | none => to_validLoop checker st fuel (cs ++ [.nonexist address])
    | .needs (.accountStorage address index) =>
      match assocGet st.ledger address with
      | some acct =>
        to_validLoop checker st fuel
          (cs ++ [.storage address index ((assocGet acct.storage_root index).getD 0)])
      | none => to_validLoop checker st fuel (cs ++ [.nonexist address])
    | .needs (.blockhash _) => .fatal

/-- Upper bound of unsigned 256-bit arithmetic. -/
def U256LIMIT : Nat := 2 ^ 256

/-- Writing a batch of changed storage keys into a storage trie (the for loop
over `changing_storage`; the source iterates a hash map in unspecified order,
modelled here in list order — no claim depends on the order). -/
def insertAllStorage (tr : StorageMap) (kvs : StorageMap) : StorageMap :=
  kvs.foldl (fun acc kv => assocInsert acc kv.1 kv.2) tr

/-- The state applier's treatment of one declared account effect, mirroring
the `match` in `transit`: full replacement (with the code-hash consistency
assertion), balance increase/decrease (account looked up with `unwrap`,
checked 256-bit arithmetic), and create-or-destroy. -/
def applyEffect (st : MinerState) (eff : VMEffect) : Res MinerState :=
  match eff with
  | .full address nonce balance changingStorage codeBytes =>
    match assocGet st.ledger address with
    | none => .fatal
    | some acct =>
      let storageRoot := insertAllStorage acct.storage_root changingStorage
      let acct2 := { acct with balance := balance, nonce := nonce,
                               storage_root := storageRoot }
      if acct.code_hash = keccak256 codeBytes then
        .ok { st with ledger := assocInsert st.ledger address acct2 }
      else .fatal
  | .increaseBalance address value =>
    match assocGet st.ledger address with
    | none => .fatal
    | some acct =>
      let acct2 := { acct with balance := acct.balance + value }
      if acct.balance + value < U256LIMIT then
        .ok { st with ledger := assocInsert st.ledger address acct2 }
      else .fatal
  | .decreaseBalance address value =>
    match assocGet st.ledger address with
    | none => .fatal
    | some acct =>
      let acct2 := { acct with balance := acct.balance - value }
      if value ≤ acct.balance then
        .ok { st with ledger := assocInsert st.ledger address acct2 }
      else .fatal
  | .create address nonce balance storage codeBytes acctExists =>
    if acctExists then
      let storageRoot := insertAllStorage [] storage
      let codeHash := keccak256 codeBytes
      let acct2 : Account := { nonce := nonce, balance := balance,
                               storage_root := storageRoot, code_hash := codeHash }
      .ok { ledger := assocInsert st.ledger address acct2,
            raw := insertHashRaw st.raw codeHash codeBytes }
    else
      .ok { st with ledger := assocErase st.ledger address }

/-- Application of every declared effect in the order the VM declares them. -/
def applyEffects (st : MinerState) : List VMEffect → Res MinerState
  | [] => .ok st
  | eff :: rest =>
    match applyEffect st eff with
    | .ok st1 => applyEffects st1 rest
    | .fatal => .fatal
    | .fuelOut => .fuelOut

/-- The log filter with no entries. -/
def bloomEmpty : Finset Nat := ∅

/-- Setting one item (an address or a topic) into a log filter.  The filter is
out of scope (an external collaborator) and is modelled exactly, as the set of
items it has accumulated. -/
def bloomSet (b : Finset Nat) (x : Nat) : Finset Nat :=
  insert x b

/-- Bitwise OR of two log filters. -/
def bloomOr (b c : Finset Nat) : Finset Nat :=
  b ∪ c

/-- Folding one log into a filter: its address, then each topic in order. -/
def bloomOfLog (b : Finset Nat) (log : LogEntry) : Finset Nat :=
  log.topics.foldl bloomSet (bloomSet b log.address)

/-- A transaction receipt: gas used, emitted logs, their filter, and the
ledger root after this transaction's effects were applied. -/
structure Receipt where
  used_gas : Nat
  logs : List LogEntry
  logs_bloom : Finset Nat
  state_root : Ledger
deriving DecidableEq

/-- The state applier `transit`: run the execution VM to completion through
the resolution loop, apply every declared account effect to the ledger, and
build the receipt (gas, logs in emission order, their folded filter, and the
ledger root after all effects). -/
def transit (blockByNumber : Nat → Bytes) (vm : ExecVM) (st : MinerState)
    (fuel : Nat) : Res (MinerState × Receipt) :=
  match callLoop blockByNumber vm st fuel [] with
  | .fatal => .fatal
  | .fuelOut => .fuelOut
  | .ok (st1, r) =>
    match applyEffects st1 r.accounts with
    | .fatal => .fatal
    | .fuelOut => .fuelOut
    | .ok st2 =>
      .ok (st2, { used_gas := r.usedGas, logs := r.logs,
                  logs_bloom := r.logs.foldl bloomOfLog bloomEmpty,
                  state_root := st2.ledger })

/-- The contents of a trie keyed by serialized bytes (the per-block
transaction and receipt tries). -/
abbrev BytesTrie := List (Bytes × Bytes)

/-- Opaque canonical serialization collaborator, for a transaction (a signed
transaction is identified by an opaque descriptor).  No claim depends on the
encoding beyond it being a fixed function. -/
def rlpEncodeTx (t : Nat) : Bytes := [t]

/-- Opaque canonical serialization collaborator, for a trie index key. -/
def rlpEncodeIndex (i : Nat) : Bytes := [i]

/-- Opaque canonical serialization collaborator, for a receipt. -/
def rlpEncodeReceipt (r : Receipt) : Bytes := [r.used_gas]

/-- A block header.  Root-typed fields hold the canonical contents they
address (perfect content-addressing model); `parent_hash` holds the opaque
header hash of the parent. -/
structure Header where
  parent_hash : Bytes
  ommers_hash : BytesTrie
  beneficiary : Addr
  state_root : Ledger
  transactions_root : BytesTrie
  receipts_root : BytesTrie
  logs_bloom : Finset Nat
  gas_limit : Nat
  gas_used : Nat
  timestamp : Nat
  extra_data : Nat
  number : Nat
  difficulty : Nat
  mix_hash : Nat
  nonce : Nat
deriving DecidableEq

/-- Opaque header hashing of the out-of-scope chain collaborator
(`header_hash()`); a fixed deterministic function no claim depends on. -/
def headerHash (h : Header) : Bytes := h.number :: h.parent_hash

/-- A block: header, ordered transactions (opaque descriptors), and the
always-empty ommer list. -/
structure Block where
  header : Header
  transactions : List Nat
  ommers : List Header
deriving DecidableEq

/-- The body of the block assembler's for loop, `for i in 0..transactions.len()`,
which indexes `receipts[i]`: build the two index-keyed tries, index the
serialized bodies by content hash in the raw-bytes namespace, OR the receipt
filters together and sum the used gas.  The loop is driven by the transaction
list; the receipt list is consumed in lockstep, so running out of receipts is
the source's out-of-bounds indexing panic (fatal), while surplus receipts
beyond the transaction count are never touched. -/
def assembleLoop : List Nat → List Receipt → Nat → BytesTrie → BytesTrie →
    RawStore → Finset Nat → Nat →
    Res (BytesTrie × BytesTrie × RawStore × Finset Nat × Nat)
  | [], _, _, txTrie, rcptTrie, raw, bloom, gasUsed =>
    .ok (txTrie, rcptTrie, raw, bloom, gasUsed)
  | _ :: _, [], _, _, _, _, _, _ => .fatal
  | t :: ts, r :: rs, i, txTrie, rcptTrie, raw, bloom, gasUsed =>
    let transactionRlp := rlpEncodeTx t
    let transactionHash := keccak256 transactionRlp
    let receiptRlp := rlpEncodeReceipt r
    let receiptHash := keccak256 receiptRlp
    assembleLoop ts rs (i + 1)
      (assocInsert txTrie (rlpEncodeIndex i) transactionRlp)
      (assocInsert rcptTrie (rlpEncodeIndex i) receiptRlp)
      (insertHashRaw (insertHashRaw raw transactionHash transactionRlp) receiptHash receiptRlp)
      (bloomOr bloom r.logs_bloom)
      (gasUsed + r.used_gas)

/-- The block assembler `next`: assembles the transaction and receipt tries,
the aggregate filter and the gas total from the index-aligned lists, and
builds the next unsealed header linked to the parent.  The length contract is
only a `debug_assert!` in the source, absent from optimized builds, so no
up-front length check is modelled: a receipt list shorter than the
transaction list aborts mid-loop on the out-of-bounds `receipts[i]` index,
and a longer one silently contributes only its first `transactions.len()`
receipts.  `now` is the system clock reading (`current_timestamp()`), passed
explicitly. -/
def next (current : Block) (transactions : List Nat) (receipts : List Receipt)
    (beneficiary : Addr) (gasLimit : Nat) (st : MinerState) (now : Nat) :
    Res (MinerState × Block) :=
  match assembleLoop transactions receipts 0 [] [] st.raw bloomEmpty 0 with
  | .fatal => .fatal
  | .fuelOut => .fuelOut
  | .ok res =>
    let header : Header :=
      { parent_hash := headerHash current.header,
        ommers_hash := [],
        beneficiary := beneficiary,
        state_root := st.ledger,
        transactions_root := res.1,
        receipts_root := res.2.1,
        logs_bloom := res.2.2.2.1,
        gas_limit := gasLimit,
        gas_used := res.2.2.2.2,
        timestamp := now,
        extra_data := 0,
        number := current.header.number + 1,
        difficulty := 0,
        mix_hash := 0,
        nonce := 0 }
    .ok ({ st with raw := res.2.2.1 },
         { header := header, transactions := transactions, ommers := [] })

/-- The per-transaction body of one production cycle (`mine_loop`): convert
each drained transaction to its validated form, execute and apply it, and
accumulate its receipt, threading the same mutable ledger snapshot through in
submission order. -/
def processTxs (blockByNumber : Nat → Bytes) (checkerOf : Nat → CheckerFun)
    (vmOf : Nat → Nat → ExecVM) (fuel : Nat) :
    MinerState → List Nat → Res (MinerState × List Receipt)
  | st, [] => .ok (st, [])
  | st, t :: ts =>
    match to_validLoop (checkerOf t) st fuel [] with
    | .fatal => .fatal
    | .fuelOut => .fuelOut
    | .ok (st0, v) =>
      match transit blockByNumber (vmOf t v) st0 fuel with
      | .fatal => .fatal
      | .fuelOut => .fuelOut
      | .ok (st1, receipt) =>
        match processTxs blockByNumber checkerOf vmOf fuel st1 ts with
        | .fatal => .fatal
        | .fuelOut => .fuelOut
        | .ok (st2, receipts) => .ok (st2, receipt :: receipts)

/-- One full production cycle starting from the ledger snapshot rooted at the
head block's state root: process every drained transaction in order, then
assemble and return the next block. -/
def processCycle (blockByNumber : Nat → Bytes) (checkerOf : Nat → CheckerFun)
    (vmOf : Nat → Nat → ExecVM) (fuel : Nat) (current : Block) (st : MinerState)
    (txs : List Nat) (beneficiary : Addr) (gasLimit now : Nat) :
    Res (MinerState × Block) :=
  match processTxs blockByNumber checkerOf vmOf fuel st txs with
  | .fatal => .fatal
  | .fuelOut => .fuelOut
  | .ok (st1, receipts) => next current txs receipts beneficiary gasLimit st1 now

/-- The block reward applied by the assembler.  The source never applies one
(the reward hook is an explicit TODO in `next`), so the reward/fee policy
amount of this design is zero. -/
def blockReward : Nat := 0

/-- Total of all account balances recorded in a ledger. -/
def totalBalance (l : Ledger) : Nat :=
  (l.map (fun p => p.2.balance)).sum

/-- Balance currently recorded for an address, zero when absent. -/
def balanceOf (st : MinerState) (address : Addr) : Nat :=
  match assocGet st.ledger address with
  | some acct => acct.balance
  | none => 0

/-- The net change an account effect makes to the total of all balances,
relative to the state it is applied in. -/
def effectDelta (st : MinerState) : VMEffect → Int
  | .full address _ balance _ _ => (balance : Int) - (balanceOf st address : Int)
  | .increaseBalance _ value => (value : Int)
  | .decreaseBalance _ value => -(value : Int)
  | .create address _ balance _ _ acctExists =>
    if acctExists then (balance : Int) - (balanceOf st address : Int)
    else -(balanceOf st address : Int)

/-- The net change a list of effects makes to the total of all balances,
accumulated along their successful application. -/
def effectsDelta (st : MinerState) : List VMEffect → Int
  | [] => 0
  | eff :: rest =>
    effectDelta st eff +
      match applyEffect st eff with
      | .ok st1 => effectsDelta st1 rest
      | .fatal => 0
      | .fuelOut => 0

/-- The net balance change declared by one transaction's execution: the
accumulated delta of the effect list its finished VM run declares. -/
def transitDelta (blockByNumber : Nat → Bytes) (vm : ExecVM) (st : MinerState)
    (fuel : Nat) : Int :=
  match callLoop blockByNumber vm st fuel [] with
  | .ok (st1, r) => effectsDelta st1 r.accounts
  | .fatal => 0
  | .fuelOut => 0

/-- The net balance change of a whole cycle's transaction list; zero exactly
when the cycle consists of pure transfers (every unit of value taken from one
account is given to another). -/
def cycleDelta (blockByNumber : Nat → Bytes) (checkerOf : Nat → CheckerFun)
    (vmOf : Nat → Nat → ExecVM) (fuel : Nat) : MinerState → List Nat → Int
  | _, [] => 0
  | st, t :: ts =>
    match to_validLoop (checkerOf t) st fuel [] with
    | .fatal => 0
    | .fuelOut => 0
    | .ok (st0, v) =>
      transitDelta blockByNumber (vmOf t v) st0 fuel +
        match transit blockByNumber (vmOf t v) st0 fuel with
        | .ok (st1, _) => cycleDelta blockByNumber checkerOf vmOf fuel st1 ts
        | .fatal => 0
        | .fuelOut => 0

/-- The ledger contents reached by processing a transaction list from a
starting snapshot (the starting contents when the run does not complete). -/
def ledgerAfter (blockByNumber : Nat → Bytes) (checkerOf : Nat → CheckerFun)
    (vmOf : Nat → Nat → ExecVM) (fuel : Nat) (st : MinerState) (txs : List Nat) :
    Ledger :=
  match processTxs blockByNumber checkerOf vmOf fuel st txs with
  | .ok (st1, _) => st1.ledger
  | .fatal => st.ledger
  | .fuelOut => st.ledger

/-- Following the spec's words for the receipt filter: the fold, over the
receipt's logs in emission order, of setting each log's address and each of
its topics into a fresh empty filter. -/
def bloomOfLogsSpec (logs : List LogEntry) : Finset Nat :=
  logs.foldl bloomOfLog bloomEmpty

/-- Following the spec's words for the block filter: the bitwise OR of all
the receipts' filters. -/
def blockBloomSpec (receipts : List Receipt) : Finset Nat :=
  (receipts.map (fun r => r.logs_bloom)).foldl bloomOr bloomEmpty

/-- Following the spec's words for a full-replacement effect: the account's
nonce and balance become the given values and its storage root is updated by
writing the changed keys into a trie opened at its current storage root; its
code hash is unchanged. -/
def appliedFullAccount (acct : Account) (nonce balance : Nat)
    (chst : StorageMap) : Account :=
  { acct with nonce := nonce, balance := balance,
              storage_root := insertAllStorage acct.storage_root chst }

/-- Following the spec's words for storage resolution: the committed fact for
an `AccountStorage(address, key)` requirement — the value stored under the
key in the trie rooted at the account's storage root (zero when the key is
absent), or a nonexistence fact when no account is stored at the address. -/
def storageCommitment (st : MinerState) (address index : Nat) : AccountCommitment :=
  match assocGet st.ledger address with
  | some acct => .storage address index ((assocGet acct.storage_root index).getD 0)
  | none => .nonexist address

/-- Chain storage stub for examples: every historical block hash empty. -/
def exBlockByNumber : Nat → Bytes := fun _ => []

/-- Example account: the transfer sender. -/
def exAcctA : Account :=
  { nonce := 0, balance := 100, storage_root := [(7, 42)], code_hash := [] }

/-- Example account: the transfer recipient. -/
def exAcctB : Account :=
  { nonce := 3, balance := 50, storage_root := [], code_hash := [] }

/-- Example chain state: two funded accounts, empty code seeded in the
raw-bytes namespace. -/
def exState : MinerState :=
  { ledger := [(1, exAcctA), (2, exAcctB)], raw := [([], [])] }

/-- Example parent block (genesis-like, all-zero header). -/
def exBlock : Block :=
  { header :=
      { parent_hash := [], ommers_hash := [], beneficiary := 0,
        state_root := exState.ledger, transactions_root := [], receipts_root := [],
        logs_bloom := bloomEmpty, gas_limit := 0, gas_used := 0, timestamp := 0,
        extra_data := 0, number := 0, difficulty := 0, mix_hash := 0, nonce := 0 },
    transactions := [], ommers := [] }

/-- Example log emitted by the transfer execution. -/
def exLog : LogEntry := { address := 2, topics := [11, 12], data := [1] }

/-- Example execution VM: a finished pure transfer of 5 from account 1 to
account 2, emitting one log. -/
def exTransferVM : ExecVM := fun _ =>
  .done { accounts := [.decreaseBalance 1 5, .increaseBalance 2 5],
          logs := [exLog], usedGas := 21000 }

/-- Example checker table: every transaction converts successfully. -/
def exCheckerOf : Nat → CheckerFun := fun _ _ => .done (.valid 0)

/-- Example VM table: every validated transaction runs the pure transfer. -/
def exVmOf : Nat → Nat → ExecVM := fun _ _ => exTransferVM

/-- Example checker that reports a pre-execution validation fault (such as a
nonce mismatch) for every transaction. -/
def exBadCheckerOf : Nat → CheckerFun := fun _ _ => .done (.invalid 0)

/-- Example pausable machine: first requires the storage slot (1, 7), then
finishes with no effects. -/
def exStorageVM : ExecVM := fun cs =>
  match cs with
  | [] => .needs (.accountStorage 1 7)
  | _ :: _ => .done { accounts := [], logs := [], usedGas := 0 }

/-- Example checker that first requires the storage slot (1, 7), then
validates. -/
def exStorageChecker : CheckerFun := fun cs =>
  match cs with
  | [] => .needs (.accountStorage 1 7)
  | _ :: _ => .done (.valid 0)

/-- Example checker that immediately requires a historical block hash. -/
def exBlockhashChecker : CheckerFun := fun _ => .needs (.blockhash 3)

/-- The sender account after one transfer of 5. -/
def exAcctA95 : Account :=
  { nonce := 0, balance := 95, storage_root := [(7, 42)], code_hash := [] }

/-- The sender account after two transfers of 5. -/
def exAcctA90 : Account :=
  { nonce := 0, balance := 90, storage_root := [(7, 42)], code_hash := [] }

/-- The recipient account after one transfer of 5. -/
def exAcctB55 : Account :=
  { nonce := 3, balance := 55, storage_root := [], code_hash := [] }

/-- The recipient account after two transfers of 5. -/
def exAcctB60 : Account :=
  { nonce := 3, balance := 60, storage_root := [], code_hash := [] }

/-- The chain state after the first example transfer. -/
def exStateOne : MinerState :=
  { ledger := [(2, exAcctB55), (1, exAcctA95)], raw := [([], [])] }

/-- The chain state after the second example transfer. -/
def exStateTwo : MinerState :=
  { ledger := [(2, exAcctB60), (1, exAcctA90)], raw := [([], [])] }

/-- The receipt of the first example transfer. -/
def exReceipt : Receipt :=
  { used_gas := 21000, logs := [exLog], logs_bloom := bloomOfLogsSpec [exLog],
    state_root := exStateOne.ledger }

/-- The receipt of the second example transfer. -/
def exReceiptTwo : Receipt :=
  { used_gas := 21000, logs := [exLog], logs_bloom := bloomOfLogsSpec [exLog],
    state_root := exStateTwo.ledger }

/-- The chain state published after assembling the one-transfer example
block: the ledger of `exStateOne` plus the serialized transaction and receipt
indexed by content hash in the raw-bytes namespace. -/
def exStateFinal : MinerState :=
  { ledger := exStateOne.ledger,
    raw := [([21000], [21000]), ([9], [9]), ([], [])] }

/-- The block assembled, in an optimized build, from no transactions and one
surplus receipt: the assembler's loop runs zero times, so the receipt is
silently ignored and an empty block is produced. -/
def exBlockEmpty : Block :=
  { header :=
      { parent_hash := [0], ommers_hash := [], beneficiary := 0,
        state_root := exState.ledger,
        transactions_root := [], receipts_root := [],
        logs_bloom := bloomEmpty,
        gas_limit := 1000, gas_used := 0, timestamp := 0,
        extra_data := 0, number := 1, difficulty := 0, mix_hash := 0, nonce := 0 },
    transactions := [], ommers := [] }

/-- The block assembled from the one-transfer example cycle. -/
def exBlockOne : Block :=
  { header :=
      { parent_hash := [0], ommers_hash := [], beneficiary := 0,
        state_root := exStateOne.ledger,
        transactions_root := [([0], [9])],
        receipts_root := [([0], [21000])],
        logs_bloom := bloomOr bloomEmpty (bloomOfLogsSpec [exLog]),
        gas_limit := 1000, gas_used := 21000, timestamp := 0,
        extra_data := 0, number := 1, difficulty := 0, mix_hash := 0, nonce := 0 },
    transactions := [9], ommers := [] }

end SputnikMiner

namespace SputnikMiner

theorem assocGet_eq_none_iff {κ α : Type} [DecidableEq κ] (l : List (κ × α)) (k : κ) :
    assocGet l k = none ↔ k ∉ assocKeys l := by
  induction l with
  | nil => simp [assocGet, assocKeys]
  | cons p rest ih =>
    obtain ⟨k2, v⟩ := p
    by_cases hk : k2 = k
    · subst hk
      simp [assocGet, assocKeys]
    · simp [assocGet, hk, assocKeys] at ih ⊢
      rw [ih]
      constructor
      · intro h
        exact ⟨fun he => hk he.symm, h⟩
      · intro h
        exact h.2

theorem assocErase_of_not_mem {κ α : Type} [DecidableEq κ] {l : List (κ × α)} {k : κ}
    (h : k ∉ assocKeys l) : assocErase l k = l := by
  induction l with
  | nil => rfl
  | cons p rest ih =>
    obtain ⟨k2, v⟩ := p
    simp [assocKeys] at h
    have hne : k2 ≠ k := fun he => h.1 he.symm
    simp only [assocErase, if_neg hne]
    rw [ih h.2]

theorem mem_keys_of_mem_keys_erase {κ α : Type} [DecidableEq κ]
    {l : List (κ × α)} {k a : κ} (h : a ∈ assocKeys (assocErase l k)) :
    a ∈ assocKeys l := by
  induction l with
  | nil => simp [assocErase, assocKeys] at h
  | cons p rest ih =>
    obtain ⟨k2, v⟩ := p
    by_cases hk : k2 = k
    · simp [assocErase, hk, assocKeys] at h ⊢
      exact Or.inr (ih h)
    · simp [assocErase, hk, assocKeys] at h ⊢
      rcases h with h | h
      · exact Or.inl h
      · exact Or.inr (ih h)

theorem not_mem_keys_erase_self {κ α : Type} [DecidableEq κ]
    (l : List (κ × α)) (k : κ) : k ∉ assocKeys (assocErase l k) := by
  induction l with
  | nil => simp [assocErase, assocKeys]
  | cons p rest ih =>
    obtain ⟨k2, v⟩ := p
    by_cases hk : k2 = k
    · simpa [assocErase, hk] using ih
    · simp [assocErase, hk, assocKeys]
      exact ⟨fun he => hk he.symm, ih⟩

theorem keysNodup_erase {κ α : Type} [DecidableEq κ]
    {l : List (κ × α)} (k : κ) (h : keysNodup l) : keysNodup (assocErase l k) := by
  induction l with
  | nil => simpa [assocErase] using h
  | cons p rest ih =>
    obtain ⟨k2, v⟩ := p
    simp [keysNodup, assocKeys] at h
    by_cases hk : k2 = k
    · simpa [assocErase, hk, keysNodup] using ih h.2
    · simp [assocErase, hk, keysNodup, assocKeys]
      exact ⟨fun hm => h.1 (mem_keys_of_mem_keys_erase hm),
             by simpa [keysNodup] using ih h.2⟩

theorem keysNodup_insert {κ α : Type} [DecidableEq κ]
    {l : List (κ × α)} (k : κ) (v : α) (h : keysNodup l) :
    keysNodup (assocInsert l k v) := by
  simp [assocInsert, keysNodup, assocKeys]
  exact ⟨not_mem_keys_erase_self l k, by simpa [keysNodup] using keysNodup_erase k h⟩

theorem totalBalance_insert (l : Ledger) (a : Addr) (v : Account) :
    totalBalance (assocInsert l a v) = v.balance + totalBalance (assocErase l a) := by
  simp [assocInsert, totalBalance]

theorem totalBalance_get_some {l : Ledger} {a : Addr} {acct : Account}
    (hn : keysNodup l) (h : assocGet l a = some acct) :
    totalBalance l = acct.balance + totalBalance (assocErase l a) := by
  induction l with
  | nil => simp [assocGet] at h
  | cons p rest ih =>
    obtain ⟨k2, v⟩ := p
    simp [keysNodup, assocKeys] at hn
    by_cases hk : k2 = a
    · subst hk
      simp [assocGet] at h
      subst h
      have herase : assocErase rest k2 = rest := assocErase_of_not_mem hn.1
      simp [assocErase, totalBalance, herase]
    · simp [assocGet, hk] at h
      have := ih (by simpa [keysNodup] using hn.2) h
      simp [assocErase, hk, totalBalance] at this ⊢
      omega

theorem callLoop_state (blockByNumber : Nat → Bytes) (vm : ExecVM) (st : MinerState) :
    ∀ (fuel : Nat) (cs : List AccountCommitment) (st1 : MinerState) (r : VMResult),
      callLoop blockByNumber vm st fuel cs = .ok (st1, r) → st1 = st := by
  intro fuel
  induction fuel with
  | zero => intro cs st1 r h; simp [callLoop] at h
  | succ n ih =>
    intro cs st1 r h
    simp only [callLoop] at h
    split at h
    · injection h with h2
      injection h2 with ha hb
      exact ha.symm
    all_goals first
      | exact ih _ _ _ h
      | (split at h <;> exact ih _ _ _ h)

theorem applyEffect_delta {st st1 : MinerState} {eff : VMEffect}
    (hn : keysNodup st.ledger) (h : applyEffect st eff = .ok st1) :
    (totalBalance st1.ledger : Int) = (totalBalance st.ledger : Int) + effectDelta st eff
      ∧ keysNodup st1.ledger := by
  cases eff with
  | full address nonce balance changingStorage codeBytes =>
    simp only [applyEffect] at h
    split at h
    · simp at h
    · rename_i acct hget
      split at h
      · injection h with h2
        subst h2
        have htot := totalBalance_get_some hn hget
        refine ⟨?_, keysNodup_insert _ _ hn⟩
        simp only [totalBalance_insert, effectDelta, balanceOf, hget]
        push_cast
        omega
      · simp at h
  | increaseBalance address value =>
    simp only [applyEffect] at h
    split at h
    · simp at h
    · rename_i acct hget
      split at h
      · injection h with h2
        subst h2
        have htot := totalBalance_get_some hn hget
        refine ⟨?_, keysNodup_insert _ _ hn⟩
        simp only [totalBalance_insert, effectDelta]
        push_cast
        omega
      · simp at h
  | decreaseBalance address value =>
    simp only [applyEffect] at h
    split at h
    · simp at h
    · rename_i acct hget
      split at h
      · rename_i hle
        injection h with h2
        subst h2
        have htot := totalBalance_get_some hn hget
        refine ⟨?_, keysNodup_insert _ _ hn⟩
        simp only [totalBalance_insert, effectDelta]
        push_cast [hle]
        omega
      · simp at h
  | create address nonce balance storage codeBytes acctExists =>
    simp only [applyEffect] at h
    cases acctExists with
    | true =>
      rw [if_pos rfl] at h
      injection h with h2
      subst h2
      refine ⟨?_, keysNodup_insert _ _ hn⟩
      simp only [totalBalance_insert, effectDelta, balanceOf]
      cases hget : assocGet st.ledger address with
      | none =>
        have herase := assocErase_of_not_mem ((assocGet_eq_none_iff _ _).mp hget)
        rw [herase]
        push_cast
        omega
      | some acct =>
        have htot := totalBalance_get_some hn hget
        push_cast
        omega
    | false =>
      rw [if_neg (by simp)] at h
      injection h with h2
      subst h2
      refine ⟨?_, keysNodup_erase _ hn⟩
      simp only [effectDelta, balanceOf]
      cases hget : assocGet st.ledger address with
      | none =>
        have herase := assocErase_of_not_mem ((assocGet_eq_none_iff _ _).mp hget)
        rw [herase]
        push_cast
        omega
      | some acct =>
        have htot := totalBalance_get_some hn hget
        push_cast
        omega

theorem applyEffects_delta {st st1 : MinerState} {effs : List VMEffect}
    (hn : keysNodup st.ledger) (h : applyEffects st effs = .ok st1) :
    (totalBalance st1.ledger : Int) = (totalBalance st.ledger : Int) + effectsDelta st effs
      ∧ keysNodup st1.ledger := by
  induction effs generalizing st with
  | nil =>
    simp only [applyEffects] at h
    injection h with h2
    subst h2
    simpa [effectsDelta] using hn
  | cons eff rest ih =>
    simp only [applyEffects] at h
    cases happ : applyEffect st eff with
    | ok stmid =>
      rw [happ] at h
      obtain ⟨hd, hnd⟩ := applyEffect_delta hn happ
      obtain ⟨hd2, hnd2⟩ := ih hnd h
      refine ⟨?_, hnd2⟩
      simp only [effectsDelta, happ]
      omega
    | fatal => rw [happ] at h; simp at h
    | fuelOut => rw [happ] at h; simp at h

theorem to_validLoop_state (checker : CheckerFun) (st : MinerState) :
    ∀ (fuel : Nat) (cs : List AccountCommitment) (st1 : MinerState) (v : Nat),
      to_validLoop checker st fuel cs = .ok (st1, v) → st1 = st := by
  intro fuel
  induction fuel with
  | zero => intro cs st1 v h; simp [to_validLoop] at h
  | succ n ih =>
    intro cs st1 v h
    simp only [to_validLoop] at h
    split at h
    · injection h with h2
      injection h2 with ha hb
      exact ha.symm
    · exact absurd h (by simp)
    all_goals first
      | exact ih _ _ _ h
      | (split at h <;> exact ih _ _ _ h)
      | exact absurd h (by simp)

theorem transit_receipt {blockByNumber : Nat → Bytes} {vm : ExecVM}
    {st st1 : MinerState} {fuel : Nat} {rcpt : Receipt}
    (h : transit blockByNumber vm st fuel = .ok (st1, rcpt)) :
    rcpt.state_root = st1.ledger ∧ rcpt.logs_bloom = bloomOfLogsSpec rcpt.logs := by
  simp only [transit] at h
  split at h
  · simp at h
  · simp at h
  · rename_i stc r hcall
    split at h
    · simp at h
    · simp at h
    · rename_i st2 happ
      injection h with h2
      injection h2 with he1 he2
      subst he1
      subst he2
      exact ⟨rfl, rfl⟩

theorem transit_total {blockByNumber : Nat → Bytes} {vm : ExecVM}
    {st st1 : MinerState} {fuel : Nat} {rcpt : Receipt}
    (hn : keysNodup st.ledger)
    (h : transit blockByNumber vm st fuel = .ok (st1, rcpt)) :
    (totalBalance st1.ledger : Int) =
        (totalBalance st.ledger : Int) + transitDelta blockByNumber vm st fuel
      ∧ keysNodup st1.ledger := by
  simp only [transit] at h
  split at h
  · simp at h
  · simp at h
  · rename_i stc r hcall
    have hst := callLoop_state _ _ _ _ _ _ _ hcall
    subst hst
    split at h
    · simp at h
    · simp at h
    · rename_i st2 happ
      injection h with h2
      injection h2 with he1 he2
      subst he1
      simp only [transitDelta, hcall]
      exact applyEffects_delta hn happ

theorem processTxs_total {blockByNumber : Nat → Bytes} {checkerOf : Nat → CheckerFun}
    {vmOf : Nat → Nat → ExecVM} {fuel : Nat} :
    ∀ {st st2 : MinerState} {txs : List Nat} {rs : List Receipt},
      keysNodup st.ledger →
      processTxs blockByNumber checkerOf vmOf fuel st txs = .ok (st2, rs) →
      (totalBalance st2.ledger : Int) =
          (totalBalance st.ledger : Int) +
            cycleDelta blockByNumber checkerOf vmOf fuel st txs
        ∧ keysNodup st2.ledger := by
  intro st st2 txs rs
  induction txs generalizing st rs with
  | nil =>
    intro hn h
    simp only [processTxs] at h
    injection h with h2
    injection h2 with he1 he2
    subst he1
    simpa [cycleDelta] using hn
  | cons t ts ih =>
    intro hn h
    simp only [processTxs] at h
    split at h
    · simp at h
    · simp at h
    · rename_i st0 v hvalid
      have hst0 := to_validLoop_state _ _ _ _ _ _ hvalid
      subst hst0
      split at h
      · simp at h
      · simp at h
      · rename_i st1 rcpt htrans
        obtain ⟨hd1, hn1⟩ := transit_total hn htrans
        split at h
        · simp at h
        · simp at h
        · rename_i st3 rs2 hrest
          injection h with h2
          injection h2 with he1 he2
          subst he1
          subst he2
          obtain ⟨hd2, hn2⟩ := ih hn1 hrest
          refine ⟨?_, hn2⟩
          simp only [cycleDelta, hvalid, htrans]
          omega

theorem processTxs_length {blockByNumber : Nat → Bytes} {checkerOf : Nat → CheckerFun}
    {vmOf : Nat → Nat → ExecVM} {fuel : Nat} :
    ∀ {st st2 : MinerState} {txs : List Nat} {rs : List Receipt},
      processTxs blockByNumber checkerOf vmOf fuel st txs = .ok (st2, rs) →
      rs.length = txs.length := by
  intro st st2 txs rs
  induction txs generalizing st st2 rs with
  | nil =>
    intro h
    simp only [processTxs] at h
    injection h with h2
    injection h2 with he1 he2
    subst he2
    rfl
  | cons t ts ih =>
    intro h
    simp only [processTxs] at h
    split at h
    · simp at h
    · simp at h
    · split at h
      · simp at h
      · simp at h
      · split at h
        · simp at h
        · simp at h
        · rename_i st3 rs2 hrest
          injection h with h2
          injection h2 with he1 he2
          subst he2
          simpa using ih hrest

theorem processTxs_take {blockByNumber : Nat → Bytes} {checkerOf : Nat → CheckerFun}
    {vmOf : Nat → Nat → ExecVM} {fuel : Nat} :
    ∀ {st st2 : MinerState} {txs : List Nat} {rs : List Receipt},
      processTxs blockByNumber checkerOf vmOf fuel st txs = .ok (st2, rs) →
      ∀ (i : Nat) (hi : i < rs.length),
        ∃ sti rsi,
          processTxs blockByNumber checkerOf vmOf fuel st (txs.take (i + 1)) = .ok (sti, rsi)
            ∧ (rs.get ⟨i, hi⟩).state_root = sti.ledger := by
  intro st st2 txs rs
  induction txs generalizing st st2 rs with
  | nil =>
    intro h i hi
    simp only [processTxs] at h
    injection h with h2
    injection h2 with he1 he2
    subst he2
    simp at hi
  | cons t ts ih =>
    intro h i hi
    simp only [processTxs] at h
    split at h
    · simp at h
    · simp at h
    · rename_i st0 v hvalid
      split at h
      · simp at h
      · simp at h
      · rename_i st1 rcpt htrans
        split at h
        · simp at h
        · simp at h
        · rename_i st3 rs2 hrest
          injection h with h2
          injection h2 with he1 he2
          subst he2
          cases i with
          | zero =>
            refine ⟨st1, [rcpt], ?_, ?_⟩
            · simp only [List.take, processTxs, hvalid, htrans]
            · simpa using (transit_receipt htrans).1
          | succ j =>
            have hj : j < rs2.length := by simpa using hi
            obtain ⟨sti, rsi, hpre, hroot⟩ := ih hrest j hj
            refine ⟨sti, rcpt :: rsi, ?_, ?_⟩
            · simp only [List.take, processTxs, hvalid, htrans, hpre]
            · simpa using hroot

theorem assembleLoop_bloom :
    ∀ (txs : List Nat) (receipts : List Receipt) (i : Nat)
      (txTrie rcptTrie : BytesTrie) (raw : RawStore) (bloom : Finset Nat)
      (gasUsed : Nat) (res : BytesTrie × BytesTrie × RawStore × Finset Nat × Nat),
      assembleLoop txs receipts i txTrie rcptTrie raw bloom gasUsed = .ok res →
      res.2.2.2.1 =
        ((receipts.take txs.length).map (fun r => r.logs_bloom)).foldl bloomOr bloom := by
  intro txs
  induction txs with
  | nil =>
    intro receipts i a b c d e res h
    simp only [assembleLoop] at h
    injection h with h2
    subst h2
    rfl
  | cons t ts ih =>
    intro receipts i a b c d e res h
    cases receipts with
    | nil => simp [assembleLoop] at h
    | cons r rs =>
      simp only [assembleLoop] at h
      have hrec := ih rs (i + 1) _ _ _ _ _ res h
      simp only [List.length_cons, List.take_succ_cons, List.map_cons, List.foldl_cons]
      exact hrec

theorem assembleLoop_short_fatal :
    ∀ (txs : List Nat) (receipts : List Receipt) (i : Nat)
      (txTrie rcptTrie : BytesTrie) (raw : RawStore) (bloom : Finset Nat)
      (gasUsed : Nat),
      receipts.length < txs.length →
      assembleLoop txs receipts i txTrie rcptTrie raw bloom gasUsed = .fatal := by
  intro txs
  induction txs with
  | nil => intro receipts i a b c d e h; simp at h
  | cons t ts ih =>
    intro receipts i a b c d e h
    cases receipts with
    | nil => simp [assembleLoop]
    | cons r rs =>
      simp only [assembleLoop]
      exact ih rs (i + 1) _ _ _ _ _ (by simp only [List.length_cons] at h; omega)

theorem assembleLoop_take :
    ∀ (txs : List Nat) (receipts : List Receipt) (i : Nat)
      (txTrie rcptTrie : BytesTrie) (raw : RawStore) (bloom : Finset Nat)
      (gasUsed : Nat),
      txs.length ≤ receipts.length →
      assembleLoop txs (receipts.take txs.length) i txTrie rcptTrie raw bloom gasUsed =
        assembleLoop txs receipts i txTrie rcptTrie raw bloom gasUsed := by
  intro txs
  induction txs with
  | nil => intro receipts i a b c d e h; rfl
  | cons t ts ih =>
    intro receipts i a b c d e h
    cases receipts with
    | nil => simp at h
    | cons r rs =>
      simp only [List.length_cons, List.take_succ_cons, assembleLoop]
      exact ih rs (i + 1) _ _ _ _ _ (by simp only [List.length_cons] at h; omega)

theorem next_ok {current : Block} {transactions : List Nat} {receipts : List Receipt}
    {beneficiary : Addr} {gasLimit : Nat} {st : MinerState} {now : Nat}
    {st2 : MinerState} {blk : Block}
    (h : next current transactions receipts beneficiary gasLimit st now = .ok (st2, blk)) :
    st2.ledger = st.ledger ∧ blk.header.state_root = st.ledger
      ∧ blk.header.logs_bloom = blockBloomSpec (receipts.take transactions.length)
      ∧ blk.transactions = transactions := by
  simp only [next] at h
  split at h
  · simp at h
  · simp at h
  · rename_i res hasm
    injection h with h2
    injection h2 with he1 he2
    subst he1
    subst he2
    refine ⟨rfl, rfl, ?_, rfl⟩
    simpa [blockBloomSpec] using assembleLoop_bloom _ _ _ _ _ _ _ _ _ hasm

/-- C1 counterexample.  The claim states that a transaction failing validity
conversion is silently rejected with no receipt and that the production cycle
continues, building the block from the remaining transactions.  On the code,
validity conversion unwraps the checker's answer, so a validation fault
panics: with a single transaction whose checker reports a pre-execution
fault (such as a nonce mismatch), the whole cycle is fatal — no receipt list
and no block (not even the empty block the claim predicts) is produced. -/
theorem c1_counterexample :
    processTxs exBlockByNumber exBadCheckerOf exVmOf 1 exState [9] = .fatal
      ∧ processCycle exBlockByNumber exBadCheckerOf exVmOf 1 exBlock exState [9] 0 1000 0 =
          .fatal :=
  ⟨by decide, by decide⟩

/-- C1 (amended): a transaction that fails validity conversion is not
skipped — the conversion fault is fatal and aborts the entire production
cycle, producing no block at all; and whenever a cycle's transaction
processing does complete, every drained transaction contributes exactly one
receipt, so no transaction is ever silently excluded. -/
theorem c1_validity_fault_aborts_cycle
    (blockByNumber : Nat → Bytes) (checkerOf : Nat → CheckerFun)
    (vmOf : Nat → Nat → ExecVM) (fuel : Nat) (current : Block) (st : MinerState)
    (t : Nat) (ts : List Nat) (beneficiary gasLimit now : Nat)
    (hfail : to_validLoop (checkerOf t) st fuel [] = .fatal) :
    processCycle blockByNumber checkerOf vmOf fuel current st (t :: ts)
        beneficiary gasLimit now = .fatal
      ∧ (∀ (st0 st2 : MinerState) (txs0 : List Nat) (rs : List Receipt),
          processTxs blockByNumber checkerOf vmOf fuel st0 txs0 = .ok (st2, rs) →
          rs.length = txs0.length) := by
  constructor
  · simp only [processCycle, processTxs, hfail]
  · intro st0 st2 txs0 rs h
    exact processTxs_length h

/-- C1 witness: the amended theorem applied to the concrete failing cycle. -/
theorem c1_validity_fault_aborts_cycle_witness :
    to_validLoop (exBadCheckerOf 9) exState 1 [] = .fatal
      ∧ processCycle exBlockByNumber exBadCheckerOf exVmOf 1 exBlock exState [9] 0 1000 0 =
          .fatal :=
  ⟨by decide,
   (c1_validity_fault_aborts_cycle exBlockByNumber exBadCheckerOf exVmOf 1 exBlock
     exState 9 [] 0 1000 0 (by decide)).1⟩

/-- C2: for a block produced by a production cycle, the total of all account
balances after executing and applying the block's transactions equals the
total before plus the cycle's declared net balance change; when the cycle
consists of pure transfers (net change zero), the total afterwards equals the
total before minus the reward/fee policy amount, and that reward is
explicitly zero in this design — no value is created or destroyed. -/
theorem c2_balance_conservation (blockByNumber : Nat → Bytes)
    (checkerOf : Nat → CheckerFun) (vmOf : Nat → Nat → ExecVM) (fuel : Nat)
    (current : Block) (st : MinerState) (txs : List Nat)
    (beneficiary gasLimit now : Nat) (stf : MinerState) (blk : Block)
    (hn : keysNodup st.ledger)
    (h : processCycle blockByNumber checkerOf vmOf fuel current st txs
          beneficiary gasLimit now = .ok (stf, blk)) :
    ((totalBalance stf.ledger : Int) =
        (totalBalance st.ledger : Int) + cycleDelta blockByNumber checkerOf vmOf fuel st txs)
      ∧ (cycleDelta blockByNumber checkerOf vmOf fuel st txs = 0 →
          (totalBalance stf.ledger : Int) =
              (totalBalance st.ledger : Int) - (blockReward : Int)
            ∧ blockReward = 0) := by
  simp only [processCycle] at h
  split at h
  · simp at h
  · simp at h
  · rename_i st1 receipts hrun
    obtain ⟨hd, hn1⟩ := processTxs_total hn hrun
    obtain ⟨hl, _, _, _⟩ := next_ok h
    have htot : (totalBalance stf.ledger : Int) =
        (totalBalance st.ledger : Int) + cycleDelta blockByNumber checkerOf vmOf fuel st txs := by
      rw [hl, hd]
    refine ⟨htot, fun h0 => ⟨?_, rfl⟩⟩
    rw [htot, h0]
    simp [blockReward]

/-- C2 witness: the conservation theorem applied to a concrete one-transfer
cycle (5 units moved from account 1 to account 2, zero net change). -/
theorem c2_balance_conservation_witness :
    keysNodup exState.ledger
      ∧ processCycle exBlockByNumber exCheckerOf exVmOf 1 exBlock exState [9] 0 1000 0 =
          .ok (exStateFinal, exBlockOne)
      ∧ cycleDelta exBlockByNumber exCheckerOf exVmOf 1 exState [9] = 0
      ∧ (totalBalance exStateFinal.ledger : Int) =
          (totalBalance exState.ledger : Int) - (blockReward : Int)
      ∧ blockReward = 0 :=
  ⟨by decide, by decide, by decide,
   ((c2_balance_conservation exBlockByNumber exCheckerOf exVmOf 1 exBlock exState [9]
       0 1000 0 exStateFinal exBlockOne (by decide) (by decide)).2 (by decide)).1,
   ((c2_balance_conservation exBlockByNumber exCheckerOf exVmOf 1 exBlock exState [9]
       0 1000 0 exStateFinal exBlockOne (by decide) (by decide)).2 (by decide)).2⟩

/-- C3: during validity conversion, a Blockhash requirement raised by the
checker aborts unconditionally as a fatal protocol violation — the loop never
commits an answer for it and never returns a validated transaction. -/
theorem c3_to_valid_blockhash_fatal (checker : CheckerFun) (st : MinerState)
    (fuel : Nat) (cs : List AccountCommitment) (number : Nat)
    (h : checker cs = .needs (.blockhash number)) :
    to_validLoop checker st (fuel + 1) cs = .fatal := by
  simp only [to_validLoop, h]

/-- C3 witness: the abort theorem applied to a checker that immediately
requires a historical block hash. -/
theorem c3_to_valid_blockhash_fatal_witness :
    exBlockhashChecker [] = .needs (.blockhash 3)
      ∧ to_validLoop exBlockhashChecker exState 1 [] = .fatal :=
  ⟨rfl, c3_to_valid_blockhash_fatal exBlockhashChecker exState 0 [] 3 rfl⟩

/-- C4: for a full-replacement effect on an account stored in the ledger, if
the content hash of the supplied code differs from the stored account's code
hash, application is fatal (the account is not written); if they match, the
account is rewritten with the effect's nonce and balance and the updated
storage root, its code hash unchanged. -/
theorem c4_full_effect_code_hash (st : MinerState) (address nonce balance : Nat)
    (chst : StorageMap) (codeBytes : Bytes) (acct : Account)
    (h : assocGet st.ledger address = some acct) :
    (keccak256 codeBytes ≠ acct.code_hash →
        applyEffect st (.full address nonce balance chst codeBytes) = .fatal)
      ∧ (keccak256 codeBytes = acct.code_hash →
        applyEffect st (.full address nonce balance chst codeBytes) =
          .ok { st with ledger := assocInsert st.ledger address (appliedFullAccount acct nonce balance chst) }) := by
  constructor
  · intro hne
    simp only [applyEffect, h]
    rw [if_neg (fun he => hne he.symm)]
  · intro hc
    simp only [applyEffect, h]
    rw [if_pos hc.symm]
    rfl

/-- C4 witness: the full-replacement theorem applied to account 1 of the
example state, once with mismatching code bytes and once with matching. -/
theorem c4_full_effect_code_hash_witness :
    assocGet exState.ledger 1 = some exAcctA
      ∧ applyEffect exState (.full 1 5 77 [(9, 1)] [1]) = .fatal
      ∧ applyEffect exState (.full 1 5 77 [(9, 1)] []) =
          .ok { exState with ledger := assocInsert exState.ledger 1 (appliedFullAccount exAcctA 5 77 [(9, 1)]) } :=
  ⟨by decide,
   (c4_full_effect_code_hash exState 1 5 77 [(9, 1)] [1] exAcctA (by decide)).1 (by decide),
   (c4_full_effect_code_hash exState 1 5 77 [(9, 1)] [] exAcctA (by decide)).2 (by decide)⟩

/-- C5: a balance-increase or balance-decrease effect adjusts the balance of
the account currently stored at the effect's address; when no account is
stored there, application is fatal — no account is ever silently created. -/
theorem c5_balance_adjust_effects :
    (∀ (st : MinerState) (address value : Nat),
        assocGet st.ledger address = none →
          applyEffect st (.increaseBalance address value) = .fatal
            ∧ applyEffect st (.decreaseBalance address value) = .fatal)
      ∧ (∀ (st : MinerState) (address value : Nat) (acct : Account),
        assocGet st.ledger address = some acct →
          (acct.balance + value < U256LIMIT →
            applyEffect st (.increaseBalance address value) =
              .ok { st with ledger := assocInsert st.ledger address { acct with balance := acct.balance + value } })
            ∧ (value ≤ acct.balance →
            applyEffect st (.decreaseBalance address value) =
              .ok { st with ledger := assocInsert st.ledger address { acct with balance := acct.balance - value } })) := by
  constructor
  · intro st address value hget
    constructor <;> simp only [applyEffect, hget]
  · intro st address value acct hget
    constructor
    · intro hlt
      simp only [applyEffect, hget]
      rw [if_pos hlt]
    · intro hle
      simp only [applyEffect, hget]
      rw [if_pos hle]

/-- C5 witness: the balance-effect theorem applied to the example state, at
an absent address (3) and at the stored recipient account (2). -/
theorem c5_balance_adjust_effects_witness :
    assocGet exState.ledger 3 = none
      ∧ applyEffect exState (.increaseBalance 3 5) = .fatal
      ∧ applyEffect exState (.decreaseBalance 3 5) = .fatal
      ∧ assocGet exState.ledger 2 = some exAcctB
      ∧ applyEffect exState (.increaseBalance 2 5) =
          .ok { exState with ledger := assocInsert exState.ledger 2 { exAcctB with balance := exAcctB.balance + 5 } }
      ∧ applyEffect exState (.decreaseBalance 2 5) =
          .ok { exState with ledger := assocInsert exState.ledger 2 { exAcctB with balance := exAcctB.balance - 5 } } :=
  ⟨by decide,
   (c5_balance_adjust_effects.1 exState 3 5 (by decide)).1,
   (c5_balance_adjust_effects.1 exState 3 5 (by decide)).2,
   by decide,
   (c5_balance_adjust_effects.2 exState 2 5 exAcctB (by decide)).1 (by decide),
   (c5_balance_adjust_effects.2 exState 2 5 exAcctB (by decide)).2 (by decide)⟩

/-- C6: when a cycle's transaction processing completes, the i-th receipt's
state root equals the ledger contents reached by applying transactions 0
through i (inclusive) from the starting snapshot — a cumulative running
snapshot, not the effect of transaction i alone. -/
theorem c6_receipt_state_root_cumulative (blockByNumber : Nat → Bytes)
    (checkerOf : Nat → CheckerFun) (vmOf : Nat → Nat → ExecVM) (fuel : Nat)
    (st st2 : MinerState) (txs : List Nat) (rs : List Receipt)
    (h : processTxs blockByNumber checkerOf vmOf fuel st txs = .ok (st2, rs))
    (i : Nat) (hi : i < rs.length) :
    (rs.get ⟨i, hi⟩).state_root =
      ledgerAfter blockByNumber checkerOf vmOf fuel st (txs.take (i + 1)) := by
  obtain ⟨sti, rsi, hpre, hroot⟩ := processTxs_take h i hi
  rw [hroot]
  simp only [ledgerAfter, hpre]

/-- C6 witness: the cumulative-snapshot theorem applied to a concrete
two-transfer cycle, at the second receipt. -/
theorem c6_receipt_state_root_cumulative_witness :
    processTxs exBlockByNumber exCheckerOf exVmOf 1 exState [8, 9] =
        .ok (exStateTwo, [exReceipt, exReceiptTwo])
      ∧ ([exReceipt, exReceiptTwo].get ⟨1, by decide⟩).state_root =
          ledgerAfter exBlockByNumber exCheckerOf exVmOf 1 exState ([8, 9].take 2) :=
  ⟨by decide,
   c6_receipt_state_root_cumulative exBlockByNumber exCheckerOf exVmOf 1 exState
     exStateTwo [8, 9] [exReceipt, exReceiptTwo] (by decide) 1 (by decide)⟩

/-- C7: a receipt's log filter is exactly the fold, over its logs in emission
order, of setting each log's address and topics into a fresh empty filter;
and a produced block's aggregate filter is exactly the bitwise OR of the
filters of the receipts it was assembled from (the first
`transactions.length` receipts — all of them whenever the lists are
index-aligned with equal lengths, as the production cycle always supplies
them). -/
theorem c7_logs_bloom_aggregation :
    (∀ (blockByNumber : Nat → Bytes) (vm : ExecVM) (st st1 : MinerState)
        (fuel : Nat) (rcpt : Receipt),
        transit blockByNumber vm st fuel = .ok (st1, rcpt) →
          rcpt.logs_bloom = bloomOfLogsSpec rcpt.logs)
      ∧ (∀ (current : Block) (transactions : List Nat) (receipts : List Receipt)
          (beneficiary : Addr) (gasLimit : Nat) (st : MinerState) (now : Nat)
          (st2 : MinerState) (blk : Block),
        next current transactions receipts beneficiary gasLimit st now = .ok (st2, blk) →
          blk.header.logs_bloom = blockBloomSpec (receipts.take transactions.length)
            ∧ (transactions.length = receipts.length →
                blk.header.logs_bloom = blockBloomSpec receipts)) := by
  constructor
  · intro blockByNumber vm st st1 fuel rcpt h
    exact (transit_receipt h).2
  · intro current transactions receipts beneficiary gasLimit st now st2 blk h
    have hb := (next_ok h).2.2.1
    refine ⟨hb, fun hlen => ?_⟩
    rw [hb, hlen, List.take_length]

/-- C7 witness: the filter theorem applied to the concrete transfer receipt
and to the concrete one-transaction block with its index-aligned one-receipt
list. -/
theorem c7_logs_bloom_aggregation_witness :
    transit exBlockByNumber exTransferVM exState 1 = .ok (exStateOne, exReceipt)
      ∧ exReceipt.logs_bloom = bloomOfLogsSpec exReceipt.logs
      ∧ next exBlock [9] [exReceipt] 0 1000 exStateOne 0 = .ok (exStateFinal, exBlockOne)
      ∧ exBlockOne.header.logs_bloom = blockBloomSpec [exReceipt] :=
  ⟨by decide,
   c7_logs_bloom_aggregation.1 exBlockByNumber exTransferVM exState exStateOne 1
     exReceipt (by decide),
   by decide,
   (c7_logs_bloom_aggregation.2 exBlock [9] [exReceipt] 0 1000 exStateOne 0
     exStateFinal exBlockOne (by decide)).2 rfl⟩

/-- C8 counterexample.  The claim states that every invocation of the block
assembler with lists of different lengths is rejected defensively, with no
block produced.  The source's guard is only a debug assertion, compiled out
of optimized builds: invoked with zero transactions and one receipt, the
assembler's loop runs zero times and a block is produced, the surplus receipt
silently ignored. -/
theorem c8_counterexample :
    (([] : List Nat).length ≠ [exReceipt].length)
      ∧ next exBlock [] [exReceipt] 0 1000 exState 0 = .ok (exState, exBlockEmpty) :=
  ⟨by decide, by decide⟩

/-- C8 (amended): the length contract is only a debug assertion, absent from
optimized builds, so mismatched lists are not rejected up front: a receipt
list shorter than the transaction list aborts fatally mid-loop (the
out-of-bounds receipt indexing), while a longer receipt list produces exactly
the block its first `transactions.length` receipts would produce — the
surplus receipts are silently ignored rather than defensively rejected. -/
theorem c8_next_length_mismatch :
    (∀ (current : Block) (transactions : List Nat) (receipts : List Receipt)
        (beneficiary : Addr) (gasLimit : Nat) (st : MinerState) (now : Nat),
        receipts.length < transactions.length →
        next current transactions receipts beneficiary gasLimit st now = .fatal)
      ∧ (∀ (current : Block) (transactions : List Nat) (receipts : List Receipt)
          (beneficiary : Addr) (gasLimit : Nat) (st : MinerState) (now : Nat),
        transactions.length ≤ receipts.length →
        next current transactions receipts beneficiary gasLimit st now =
          next current transactions (receipts.take transactions.length)
            beneficiary gasLimit st now) := by
  constructor
  · intro current transactions receipts beneficiary gasLimit st now h
    simp only [next, assembleLoop_short_fatal _ _ _ _ _ _ _ _ h]
  · intro current transactions receipts beneficiary gasLimit st now h
    simp only [next, assembleLoop_take _ _ _ _ _ _ _ _ h]

/-- C8 witness: the amended theorem applied concretely — one transaction with
no receipts is fatal mid-loop; zero transactions with one surplus receipt
produce the same block as with the empty receipt prefix. -/
theorem c8_next_length_mismatch_witness :
    (([] : List Receipt).length < [9].length)
      ∧ next exBlock [9] [] 0 1000 exState 0 = .fatal
      ∧ (([] : List Nat).length ≤ [exReceipt].length)
      ∧ next exBlock [] [exReceipt] 0 1000 exState 0 =
          next exBlock [] ([exReceipt].take ([] : List Nat).length) 0 1000 exState 0 :=
  ⟨by decide,
   c8_next_length_mismatch.1 exBlock [9] [] 0 1000 exState 0 (by decide),
   by decide,
   c8_next_length_mismatch.2 exBlock [] [exReceipt] 0 1000 exState 0 (by decide)⟩

/-- C9: in both resolution loops, an AccountStorage(address, key) requirement
is answered by committing the value stored under the key in the trie rooted
at the account's storage root (zero when the key is absent), or a
nonexistence fact when no account is stored at the address. -/
theorem c9_account_storage_resolution :
    (∀ (blockByNumber : Nat → Bytes) (vm : ExecVM) (st : MinerState) (fuel : Nat)
        (cs : List AccountCommitment) (address index : Nat),
        vm cs = .needs (.accountStorage address index) →
          callLoop blockByNumber vm st (fuel + 1) cs =
            callLoop blockByNumber vm st fuel (cs ++ [storageCommitment st address index]))
      ∧ (∀ (checker : CheckerFun) (st : MinerState) (fuel : Nat)
          (cs : List AccountCommitment) (address index : Nat),
        checker cs = .needs (.accountStorage address index) →
          to_validLoop checker st (fuel + 1) cs =
            to_validLoop checker st fuel (cs ++ [storageCommitment st address index])) := by
  constructor
  · intro blockByNumber vm st fuel cs address index h
    simp only [callLoop, h, storageCommitment]
    cases hget : assocGet st.ledger address <;> simp [hget]
  · intro checker st fuel cs address index h
    simp only [to_validLoop, h, storageCommitment]
    cases hget : assocGet st.ledger address <;> simp [hget]

/-- C9 witness: the storage-resolution theorem applied to both loops on a
machine requiring slot (1, 7), whose committed value 42 is read from account
1's storage trie. -/
theorem c9_account_storage_resolution_witness :
    exStorageVM [] = .needs (.accountStorage 1 7)
      ∧ storageCommitment exState 1 7 = .storage 1 7 42
      ∧ callLoop exBlockByNumber exStorageVM exState 2 [] =
          callLoop exBlockByNumber exStorageVM exState 1 [storageCommitment exState 1 7]
      ∧ to_validLoop exStorageChecker exState 2 [] =
          to_validLoop exStorageChecker exState 1 [storageCommitment exState 1 7] :=
  ⟨by decide, by decide,
   by simpa using
     c9_account_storage_resolution.1 exBlockByNumber exStorageVM exState 1 [] 1 7 (by decide),
   by simpa using
     c9_account_storage_resolution.2 exStorageChecker exState 1 [] 1 7 (by decide)⟩

/-- C10: both resolution loops only read the ledger: when they complete, the
state they return is the state they were given, so the trie's contents (and
hence its root) after resolution equal those before; all ledger writes happen
afterwards in the state applier. -/
theorem c10_resolution_reads_only :
    (∀ (blockByNumber : Nat → Bytes) (vm : ExecVM) (st : MinerState) (fuel : Nat)
        (cs : List AccountCommitment) (st1 : MinerState) (r : VMResult),
        callLoop blockByNumber vm st fuel cs = .ok (st1, r) →
          st1 = st ∧ st1.ledger = st.ledger)
      ∧ (∀ (checker : CheckerFun) (st : MinerState) (fuel : Nat)
          (cs : List AccountCommitment) (st1 : MinerState) (v : Nat),
        to_validLoop checker st fuel cs = .ok (st1, v) →
          st1 = st ∧ st1.ledger = st.ledger) := by
  constructor
  · intro blockByNumber vm st fuel cs st1 r h
    have he := callLoop_state blockByNumber vm st fuel cs st1 r h
    exact ⟨he, by rw [he]⟩
  · intro checker st fuel cs st1 v h
    have he := to_validLoop_state checker st fuel cs st1 v h
    exact ⟨he, by rw [he]⟩

/-- C10 witness: the frame theorem applied to complete runs of both loops
that resolve one storage requirement against the example state. -/
theorem c10_resolution_reads_only_witness :
    callLoop exBlockByNumber exStorageVM exState 2 [] =
        .ok (exState, { accounts := [], logs := [], usedGas := 0 })
      ∧ to_validLoop exStorageChecker exState 2 [] = .ok (exState, 0)
      ∧ exState.ledger = exState.ledger :=
  ⟨by decide, by decide,
   (c10_resolution_reads_only.1 exBlockByNumber exStorageVM exState 2 []
     exState { accounts := [], logs := [], usedGas := 0 } (by decide)).2⟩

end SputnikMiner
